import Mathlib

/-!
Shallow embedding of `src/main.py` and `src/making-file.py` from the
repository `Creating-Jupyter-Notebook-from-Python-folder`, together with
proofs about the embedded functions.

Strings are modelled as `List Char`.  The two regular-expression passes of
`remove_comments_and_docstrings` are embedded as executable scanners that
implement Python `re.sub` semantics (leftmost match, alternatives tried in
order, non-greedy `.*?` = earliest closing delimiter, `re.MULTILINE` for the
comment pass, `re.DOTALL` for the string pass).
-/

namespace NotebookTool

/-- The double-quote character `"`. -/
def dq : Char := Char.ofNat 34

/-- The single-quote character. -/
def sq : Char := Char.ofNat 39

/-!
## Pass 1: `re.sub(r'#.*$', '', source_code, flags=re.MULTILINE)`
(`src/main.py` line 25 and `src/making-file.py` line 25).

In MULTILINE mode `#.*$` matches from the first `#` of a line to the end of
that line (`.` does not match `\n`), so the pass drops every character from
the first `#` of each line up to, but not including, the next newline.
We embed it as a character scanner with an in-comment flag.
-/

/-- Scanner for the line-comment pass; the `Bool` records whether the scanner
is currently inside a `#`-comment (which a newline terminates). -/
def rcAux : Bool → List Char → List Char
  | _, [] => []
  | inC, x :: xs =>
    if x = '\n' then '\n' :: rcAux false xs
    else if x = '#' then rcAux true xs
    else if inC then rcAux true xs
    else x :: rcAux false xs

/-- The comment-removal pass of `remove_comments_and_docstrings`. -/
def removeComments (s : List Char) : List Char := rcAux false s

/-!
## Pass 2: `re.sub(pattern, replacer, source_code, flags=re.DOTALL)` with
`pattern = (""".*?"""|\'\'\'.*?\'\'\')|(".*?"|\'.*?\')`
(`src/main.py` lines 28–32 and `src/making-file.py` lines 28–32).

At each position the four alternatives are tried in order (triple-double,
triple-single, single-double, single-single); `.*?` is non-greedy under
DOTALL, so a match closes at the earliest occurrence of the delimiter.
`replacer` replaces a match starting with a triple quote by the empty string
and keeps every other match verbatim.
-/

/-- `hasPrefixL d l` decides whether `d` is a prefix of `l`. -/
def hasPrefixL : List Char → List Char → Bool
  | [], _ => true
  | _ :: _, [] => false
  | d :: ds, x :: xs => d = x && hasPrefixL ds xs

/-- `findDelim d l` splits `l` at the leftmost occurrence of the delimiter
`d`, returning the part before it and the part after it (the non-greedy
`.*?` search for the closing delimiter). -/
def findDelim (d : List Char) : List Char → Option (List Char × List Char)
  | [] => if hasPrefixL d [] then some ([], []) else none
  | x :: xs =>
    if hasPrefixL d (x :: xs) then some ([], (x :: xs).drop d.length)
    else
      match findDelim d xs with
      | some (c, r) => some (x :: c, r)
      | none => none

/-- Try the alternative `qqq.*?qqq` at the current position; on success
return the rest of the input after the match (the match itself is replaced
by the empty string by `replacer`). -/
def matchTriple (q : Char) : List Char → Option (List Char)
  | a :: b :: c :: rest =>
    if a = q ∧ b = q ∧ c = q then (findDelim [q, q, q] rest).map Prod.snd
    else none
  | _ => none

/-- Try the alternative `q.*?q` at the current position; on success return
the matched text (kept verbatim by `replacer`) and the rest of the input. -/
def matchSingle (q : Char) : List Char → Option (List Char × List Char)
  | x :: xs =>
    if x = q then (findDelim [q] xs).map (fun p => (q :: (p.1 ++ [q]), p.2))
    else none
  | [] => none

/-- Fuelled scanner for the string/docstring pass; with fuel `≥` the length
of the input the fuel never runs out. -/
def stripAux : Nat → List Char → List Char
  | 0, s => s
  | _ + 1, [] => []
  | n + 1, x :: xs =>
    match matchTriple dq (x :: xs) with
    | some rest => stripAux n rest
    | none =>
      match matchTriple sq (x :: xs) with
      | some rest => stripAux n rest
      | none =>
        match matchSingle dq (x :: xs) with
        | some (m, rest) => m ++ stripAux n rest
        | none =>
          match matchSingle sq (x :: xs) with
          | some (m, rest) => m ++ stripAux n rest
          | none => x :: stripAux n xs

/-- The string-literal/docstring pass of `remove_comments_and_docstrings`. -/
def stripStrings (s : List Char) : List Char := stripAux s.length s

/-- `remove_comments_and_docstrings` from `src/main.py` lines 20–34:
the comment pass followed by the string/docstring pass. -/
def remove_comments_and_docstrings (s : List Char) : List Char :=
  stripStrings (removeComments s)

/-- `remove_comments_and_docstrings` from `src/making-file.py` lines 20–34
(character-identical source to the copy in `src/main.py`). -/
def remove_comments_and_docstrings_mf (s : List Char) : List Char :=
  stripStrings (removeComments s)

end NotebookTool


namespace NotebookTool

/-!
## Declaration extractor (`src/main.py` lines 36–53)

`extract_functions_and_classes_from_file` parses the file with `ast.parse`
and walks `node.body`.  The parser and `ast.unparse` are the standard
library's; we model a parsed module as the list of its top-level statements,
each carrying its AST kind and the source text `ast.unparse` renders for it.
-/

/-- The AST kind of a top-level statement, as far as the
`isinstance(item, (ast.FunctionDef, ast.AsyncFunctionDef, ast.ClassDef))`
test distinguishes it. -/
inductive StmtKind
  | functionDef
  | asyncFunctionDef
  | classDef
  | otherStmt
deriving DecidableEq

/-- A top-level statement of a parsed module: its kind and the source text
that `ast.unparse` renders it back to. -/
structure Stmt where
  kind : StmtKind
  src : List Char
deriving DecidableEq

/-- The `isinstance` test on `src/main.py` line 48. -/
def isDeclKind : StmtKind → Bool
  | .functionDef => true
  | .asyncFunctionDef => true
  | .classDef => true
  | .otherStmt => false

/-- `extract_functions_and_classes_from_file` (`src/main.py` lines 36–53),
applied to the parsed module body of the file: for each top-level
function/class declaration, in order, the unparsed source run through
`remove_comments_and_docstrings`. -/
def extract_functions_and_classes_from_file (body : List Stmt) : List (List Char) :=
  body.filterMap fun item =>
    if isDeclKind item.kind then some (remove_comments_and_docstrings item.src)
    else none

/-!
## Notebook model and the two walk drivers

`nbformat` is modelled as an ordered list of cells; `os.walk` output and the
per-directory `input()` answers are supplied as data: one `(directory,
answer)` pair per directory in traversal order.
-/

/-- A notebook cell: markdown (heading) or code. -/
inductive Cell
  | markdown (text : List Char)
  | code (text : List Char)
deriving DecidableEq

/-- Whether a cell is a code cell. -/
def Cell.isCode : Cell → Bool
  | .code _ => true
  | .markdown _ => false

/-- The number of code cells in a cell list. -/
def codeCellsIn (cells : List Cell) : Nat := cells.countP Cell.isCode

/-- `file.endswith('.py')` (`src/main.py` line 71, `src/making-file.py`
line 49). -/
def endsWithPy (name : List Char) : Bool :=
  hasPrefixL ("yp.".toList) name.reverse

/-- `enter_folder.lower()` (ASCII case folding). -/
def pyLower (s : List Char) : List Char := s.map Char.toLower

/-- The literal `'yes'` the lowered answer is compared against. -/
def yesL : List Char := "yes".toList

/-- The heading text `f"# Functions and Classes from {file}"`
(`src/main.py` line 77). -/
def headerA (name : List Char) : List Char :=
  "# Functions and Classes from ".toList ++ name

/-- A Python file as variant A sees it: its name and its parsed module
body. -/
structure FileA where
  name : List Char
  body : List Stmt
deriving DecidableEq

/-- One `os.walk` entry for variant A: the directory path and its direct
file list. -/
structure DirA where
  root : List Char
  files : List FileA
deriving DecidableEq

/-- Variant A notebook state: the cell list and the running
`code_cell_count`. -/
structure NB where
  cells : List Cell
  codeCellCount : Nat
deriving DecidableEq

/-- The variant A per-file loop body (`src/main.py` lines 70–84): on a
`.py` file, extract; if the result list is non-empty append one markdown
heading and one code cell per fragment and add the fragment count to the
counter, otherwise change nothing. -/
def processFileA (st : NB) (f : FileA) : NB :=
  if endsWithPy f.name then
    let contents := extract_functions_and_classes_from_file f.body
    if contents.isEmpty then st
    else
      { cells := st.cells ++ [Cell.markdown (headerA f.name)] ++ contents.map Cell.code,
        codeCellCount := st.codeCellCount + contents.length }
  else st

/-- Process one confirmed directory's direct file list. -/
def processDirA (st : NB) (d : DirA) : NB := d.files.foldl processFileA st

/-- One `os.walk` iteration of variant A (`src/main.py` lines 64–84): the
directory's files are processed exactly when the lowered answer equals
`'yes'`; otherwise `continue`. -/
def stepA (st : NB) (e : DirA × List Char) : NB :=
  if pyLower e.2 = yesL then processDirA st e.1 else st

/-- The variant A walk loop started from an arbitrary state. -/
def driverAFrom (st : NB) (entries : List (DirA × List Char)) : NB :=
  entries.foldl stepA st

/-- `create_notebook_from_python_files` from `src/main.py` lines 55–87,
with the walk output and prompt answers supplied as data. -/
def create_notebook_from_python_files (entries : List (DirA × List Char)) : NB :=
  driverAFrom { cells := [], codeCellCount := 0 } entries

/-!
## Variant B driver (`src/making-file.py` lines 36–69)

Variant B reads the whole file, normalizes it, and appends one heading and
one code cell when the normalized text is non-empty.  Its diagnostics
matter to the spec, so the state also records the printed messages.
-/

/-- A diagnostic message printed by variant B. -/
inductive Msg
  | processingFile (path : List Char)
  | processingContent (name : List Char)
  | noContent (name : List Char)
deriving DecidableEq

/-- `os.path.join(root, file)` for a relative file name on POSIX. -/
def pathJoin (root name : List Char) : List Char :=
  root ++ "/".toList ++ name

/-- The heading text `f"# {file}\n\nPath: {file_path}"`
(`src/making-file.py` line 59). -/
def headerB (name path : List Char) : List Char :=
  "# ".toList ++ name ++ "\n\nPath: ".toList ++ path

/-- A Python file as variant B sees it: name and raw text content. -/
structure FileB where
  name : List Char
  content : List Char
deriving DecidableEq

/-- One `os.walk` entry for variant B. -/
structure DirB where
  root : List Char
  files : List FileB
deriving DecidableEq

/-- Variant B state: cells, running code-cell count, and printed
messages. -/
structure NBB where
  cells : List Cell
  codeCellCount : Nat
  log : List Msg
deriving DecidableEq

/-- The variant B per-file loop body (`src/making-file.py` lines 48–66):
on a `.py` file, normalize the whole content; if the result is non-empty
(Python string truthiness) append a heading cell and a single code cell and
increment the counter, otherwise print the `No content` diagnostic and
append nothing. -/
def processFileB (root : List Char) (st : NBB) (f : FileB) : NBB :=
  if endsWithPy f.name then
    let path := pathJoin root f.name
    let c := remove_comments_and_docstrings_mf f.content
    if c.isEmpty then
      { st with log := st.log ++ [Msg.processingFile path, Msg.noContent f.name] }
    else
      { cells := st.cells ++ [Cell.markdown (headerB f.name path), Cell.code c],
        codeCellCount := st.codeCellCount + 1,
        log := st.log ++ [Msg.processingFile path, Msg.processingContent f.name] }
  else st

/-- Process one confirmed directory's file list in variant B. -/
def processDirB (st : NBB) (d : DirB) : NBB :=
  d.files.foldl (processFileB d.root) st

/-- One `os.walk` iteration of variant B (`src/making-file.py` lines
43–66). -/
def stepB (st : NBB) (e : DirB × List Char) : NBB :=
  if pyLower e.2 = yesL then processDirB st e.1 else st

/-- The variant B walk loop started from an arbitrary state. -/
def driverBFrom (st : NBB) (entries : List (DirB × List Char)) : NBB :=
  entries.foldl stepB st

/-- `create_notebook_from_python_files` from `src/making-file.py` lines
36–69, with the walk output and prompt answers supplied as data. -/
def create_notebook_from_python_files_B (entries : List (DirB × List Char)) : NBB :=
  driverBFrom { cells := [], codeCellCount := 0, log := [] } entries


/-- Split a character list into its newline-separated lines. -/
def splitNL : List Char → List (List Char)
  | [] => [[]]
  | x :: xs =>
    if x = '\n' then [] :: splitNL xs
    else
      match splitNL xs with
      | l :: ls => (x :: l) :: ls
      | [] => [[x]]

/-- Join lines with newline separators (left inverse of `splitNL`). -/
def joinNL : List (List Char) → List Char
  | [] => []
  | l :: ls => l ++ (if ls.isEmpty then [] else '\n' :: joinNL ls)

/-- Truncate one line at its first comment marker. -/
def dropHash (l : List Char) : List Char :=
  l.takeWhile fun a => decide (a ≠ '#')

/-!
## Well-formed quoted segments

To state what the string pass does to docstrings and ordinary literals we
describe inputs as alternating plain text and quoted segments.
-/

/-- A quoted segment of the input: a triple-quoted documentation block or an
ordinary single/double-quoted string literal. -/
inductive Quoted
  | tripleDoc (q : Char) (c : List Char)
  | strLit (q : Char) (c : List Char)
deriving DecidableEq

/-- The source text of a quoted segment. -/
def Quoted.render : Quoted → List Char
  | .tripleDoc q c => [q, q, q] ++ c ++ [q, q, q]
  | .strLit q c => q :: (c ++ [q])

/-- What the string pass keeps of a quoted segment: triple-quoted blocks
vanish, ordinary literals survive verbatim. -/
def Quoted.kept : Quoted → List Char
  | .tripleDoc _ _ => []
  | .strLit q c => q :: (c ++ [q])

/-- Text free of quote characters and comment markers. -/
def plainOk (t : List Char) : Prop := ∀ a ∈ t, a ≠ dq ∧ a ≠ sq ∧ a ≠ '#'

/-- `plainOk` is decidable, so witnesses can discharge it by evaluation. -/
instance decPlainOk (t : List Char) : Decidable (plainOk t) :=
  decidable_of_iff (∀ a ∈ t, a ≠ dq ∧ a ≠ sq ∧ a ≠ '#') Iff.rfl

/-- A well-formed quoted segment: a real quote character as delimiter and
content free of quotes and comment markers. -/
def Quoted.ok : Quoted → Prop
  | .tripleDoc q c => (q = dq ∨ q = sq) ∧ plainOk c
  | .strLit q c => (q = dq ∨ q = sq) ∧ plainOk c

/-- `renderChunks t0 rest` is the input `t0 ++ q1 ++ t1 ++ q2 ++ t2 ++ ...`:
leading plain text, then quoted segments each followed by plain text. -/
def renderChunks : List Char → List (Quoted × List Char) → List Char
  | t0, [] => t0
  | t0, (qd, t) :: rest => t0 ++ qd.render ++ renderChunks t rest

/-- The expected normalizer output for the same decomposition. -/
def keptChunks : List Char → List (Quoted × List Char) → List Char
  | t0, [] => t0
  | t0, (qd, t) :: rest => t0 ++ qd.kept ++ keptChunks t rest

/-- Well-formedness of the decomposition: every segment ok, every plain part
free of quotes and markers, and consecutive quoted segments separated by
non-empty plain text. -/
def chunksOk : List (Quoted × List Char) → Prop
  | [] => True
  | (qd, t) :: rest => qd.ok ∧ plainOk t ∧ (rest = [] ∨ t ≠ []) ∧ chunksOk rest

/-- The cells one file contributes in variant A. -/
def fileBlockA (f : FileA) : List Cell :=
  if endsWithPy f.name then
    let contents := extract_functions_and_classes_from_file f.body
    if contents.isEmpty then []
    else Cell.markdown (headerA f.name) :: contents.map Cell.code
  else []

/-- The cells one confirmed directory contributes in variant A. -/
def dirCellsA (d : DirA) : List Cell := (d.files.map fileBlockA).flatten

/-- The cells a whole walk contributes in variant A. -/
def walkCellsA (entries : List (DirA × List Char)) : List Cell :=
  (entries.map fun e => if pyLower e.2 = yesL then dirCellsA e.1 else []).flatten


/-! ## Concrete demonstration data used by witnesses -/

/-- A demonstration module body with two declarations among three
statements. -/
def demoBody : List Stmt :=
  [{ kind := StmtKind.functionDef, src := "def f(): pass".toList },
   { kind := StmtKind.otherStmt, src := "x = 1".toList },
   { kind := StmtKind.classDef, src := "class A: pass".toList }]

/-- A demonstration `.py` file with one top-level declaration. -/
def demoFileA : FileA :=
  { name := "a.py".toList,
    body := [{ kind := StmtKind.functionDef, src := "def f(): pass".toList }] }

/-- A demonstration `.py` file with no top-level declarations. -/
def demoFileA0 : FileA :=
  { name := "b.py".toList,
    body := [{ kind := StmtKind.otherStmt, src := "x = 1".toList }] }

/-- A demonstration directory holding one file with declarations. -/
def demoDirA : DirA := { root := "r".toList, files := [demoFileA] }

/-- A demonstration subdirectory holding one declaration-free file. -/
def demoDirA2 : DirA := { root := "r/sub".toList, files := [demoFileA0] }

/-- A demonstration one-directory walk, confirmed with answer `Yes`. -/
def demoEntriesA : List (DirA × List Char) :=
  [(({ root := "r".toList, files := [demoFileA, demoFileA0] } : DirA),
    "Yes".toList)]

/-- The empty variant A notebook state. -/
def emptyNB : NB := { cells := [], codeCellCount := 0 }

/-- The empty variant B notebook state. -/
def emptyNBB : NBB := { cells := [], codeCellCount := 0, log := [] }

/-- A variant B file whose content is only a comment line ending in a
newline: normalization leaves the newline, a non-empty string. -/
def demoFileB : FileB :=
  { name := "c.py".toList, content := "# only a comment\n".toList }

/-- A variant B file whose normalized content is exactly empty. -/
def demoFileB0 : FileB :=
  { name := "d.py".toList, content := "# only a comment".toList }

/-- A demonstration one-directory walk for variant B, confirmed with
answer `Yes`. -/
def demoEntriesB : List (DirB × List Char) :=
  [(({ root := "r".toList, files := [demoFileB, demoFileB0] } : DirB),
    "Yes".toList)]

/-- The leading plain text of the demonstration chunk decomposition. -/
def demoT0 : List Char := "v = ".toList

/-- A demonstration decomposition: a triple-quoted docstring, plain code,
then an ordinary double-quoted literal. -/
def demoChunks : List (Quoted × List Char) :=
  [(Quoted.tripleDoc sq (String.toList "doc"), String.toList " x = "),
   (Quoted.strLit dq (String.toList "ab"), [])]

/-- The idempotence counterexample input: two double quotes, a single-quoted
triple block around `a`, then `b` inside stray double quotes. -/
def ceIdem : List Char := [dq, dq, sq, sq, sq, 'a', sq, sq, sq, dq, 'b', dq, dq, dq]

/-- The literal-preservation counterexample input: a triple-quoted block
around `d` followed by the ordinary literal containing `a#b`. -/
def cePreserve : List Char := [sq, sq, sq, 'd', sq, sq, sq, dq, 'a', '#', 'b', dq]

end NotebookTool

namespace NotebookTool

/-! ## Basic facts about the scanner building blocks -/

theorem dq_ne_sq : dq ≠ sq := by decide

theorem hasPrefixL_append (d s : List Char) : hasPrefixL d (d ++ s) = true := by
  induction d with
  | nil => rfl
  | cons a d ih => simp [hasPrefixL, ih]

theorem hasPrefixL_eq {d l : List Char} (h : hasPrefixL d l = true) :
    l = d ++ l.drop d.length := by
  induction d generalizing l with
  | nil => simp
  | cons a d ih =>
    cases l with
    | nil => simp [hasPrefixL] at h
    | cons x xs =>
      simp only [hasPrefixL, Bool.and_eq_true, decide_eq_true_eq] at h
      obtain ⟨h1, h2⟩ := h
      subst h1
      simpa using congrArg (a :: ·) (ih h2)

theorem hasPrefixL_cons_ne {q x : Char} (d l : List Char) (h : x ≠ q) :
    hasPrefixL (q :: d) (x :: l) = false := by
  simp [hasPrefixL, h.symm]

theorem findDelim_eq {d l c r : List Char} (h : findDelim d l = some (c, r)) :
    l = c ++ d ++ r := by
  induction l generalizing c with
  | nil =>
    cases d with
    | nil => simp [findDelim, hasPrefixL] at h; simp [h.1, h.2]
    | cons a d => simp [findDelim, hasPrefixL] at h
  | cons x xs ih =>
    rw [findDelim] at h
    by_cases hp : hasPrefixL d (x :: xs) = true
    · rw [if_pos hp] at h
      obtain ⟨hc, hr⟩ := Prod.mk.injEq .. ▸ Option.some.injEq .. ▸ h
      subst hc; subst hr
      simpa using hasPrefixL_eq hp
    · rw [if_neg hp] at h
      cases hfd : findDelim d xs with
      | none => rw [hfd] at h; cases h
      | some p =>
        obtain ⟨c', r'⟩ := p
        rw [hfd] at h
        obtain ⟨hc, hr⟩ := Prod.mk.injEq .. ▸ Option.some.injEq .. ▸ h
        subst hc; subst hr
        simpa using congrArg (x :: ·) (ih hfd)

theorem findDelim_of_not_mem {q : Char} (d c s : List Char)
    (hc : ∀ a ∈ c, a ≠ q) :
    findDelim (q :: d) (c ++ (q :: d) ++ s) = some (c, s) := by
  induction c with
  | nil =>
    have h2 : hasPrefixL (q :: d) ((q :: d) ++ s) = true := hasPrefixL_append _ _
    have h3 : (q :: d) ++ s = q :: (d ++ s) := by simp
    simp only [List.nil_append]
    rw [h3, findDelim, ← h3, if_pos h2, List.drop_left]
  | cons a c ih =>
    have ha : a ≠ q := hc a (by simp)
    have h3 : (a :: c) ++ (q :: d) ++ s = a :: (c ++ (q :: d) ++ s) := by simp
    rw [h3, findDelim, hasPrefixL_cons_ne _ _ ha]
    simp only [Bool.false_eq_true, if_false]
    rw [ih (fun b hb => hc b (by simp [hb]))]

end NotebookTool


namespace NotebookTool

/-! ## Facts about the four regex alternatives -/

theorem matchTriple_cons_ne {q x : Char} (l : List Char) (h : x ≠ q) :
    matchTriple q (x :: l) = none := by
  match l with
  | [] => rfl
  | [_] => rfl
  | b :: c :: rest => simp [matchTriple, h]

theorem matchTriple_second_ne {q y : Char} (x : Char) (l : List Char) (h : y ≠ q) :
    matchTriple q (x :: y :: l) = none := by
  match l with
  | [] => rfl
  | c :: rest => simp [matchTriple, h]

theorem matchTriple_third_ne {q z : Char} (x y : Char) (l : List Char) (h : z ≠ q) :
    matchTriple q (x :: y :: z :: l) = none := by
  simp [matchTriple, h]

theorem matchTriple_two (q x y : Char) : matchTriple q [x, y] = none := rfl

theorem matchTriple_consume {q : Char} (c s : List Char) (hc : ∀ a ∈ c, a ≠ q) :
    matchTriple q (q :: q :: q :: (c ++ [q, q, q] ++ s)) = some s := by
  have hfd : findDelim [q, q, q] (c ++ [q, q, q] ++ s) = some (c, s) := by
    simpa using findDelim_of_not_mem (q := q) [q, q] c s hc
  rw [matchTriple, if_pos ⟨rfl, rfl, rfl⟩, hfd]
  rfl

theorem matchSingle_cons_ne {q x : Char} (l : List Char) (h : x ≠ q) :
    matchSingle q (x :: l) = none := by
  simp [matchSingle, h]

theorem matchSingle_consume {q : Char} (c s : List Char) (hc : ∀ a ∈ c, a ≠ q) :
    matchSingle q (q :: (c ++ [q] ++ s)) = some (q :: (c ++ [q]), s) := by
  have hfd : findDelim [q] (c ++ [q] ++ s) = some (c, s) := by
    simpa using findDelim_of_not_mem (q := q) [] c s hc
  rw [matchSingle, if_pos rfl, hfd]
  rfl

theorem matchTriple_some {q : Char} {s rest : List Char}
    (h : matchTriple q s = some rest) :
    ∃ c, s = [q, q, q] ++ (c ++ [q, q, q] ++ rest) := by
  match s with
  | [] => simp [matchTriple] at h
  | [_] => simp [matchTriple] at h
  | [_, _] => simp [matchTriple] at h
  | a :: b :: c' :: tl =>
    rw [matchTriple] at h
    by_cases hq : a = q ∧ b = q ∧ c' = q
    · rw [if_pos hq] at h
      obtain ⟨h1, h2, h3⟩ := hq
      cases hfd : findDelim [q, q, q] tl with
      | none => rw [hfd] at h; cases h
      | some p =>
        obtain ⟨cc, r⟩ := p
        rw [hfd] at h
        simp only [Option.map_some', Option.some.injEq] at h
        subst h
        refine ⟨cc, ?_⟩
        rw [h1, h2, h3, findDelim_eq hfd]
        simp
    · rw [if_neg hq] at h; cases h

theorem matchSingle_some {q : Char} {s m rest : List Char}
    (h : matchSingle q s = some (m, rest)) :
    ∃ c, m = q :: (c ++ [q]) ∧ s = q :: (c ++ [q] ++ rest) := by
  match s with
  | [] => simp [matchSingle] at h
  | x :: xs =>
    rw [matchSingle] at h
    by_cases hx : x = q
    · rw [if_pos hx] at h
      cases hfd : findDelim [q] xs with
      | none => rw [hfd] at h; cases h
      | some p =>
        obtain ⟨cc, r⟩ := p
        rw [hfd] at h
        simp only [Option.map_some', Option.some.injEq, Prod.mk.injEq] at h
        obtain ⟨hm, hr⟩ := h
        refine ⟨cc, hm.symm, ?_⟩
        rw [hx, ← hr, findDelim_eq hfd]
    · rw [if_neg hx] at h; cases h

theorem matchTriple_some_length {q : Char} {s rest : List Char}
    (h : matchTriple q s = some rest) : rest.length + 6 ≤ s.length := by
  obtain ⟨c, hc⟩ := matchTriple_some h
  subst hc
  simp only [List.append_assoc, List.length_append, List.length_cons, List.length_nil]
  omega

theorem matchSingle_some_length {q : Char} {s m rest : List Char}
    (h : matchSingle q s = some (m, rest)) : rest.length + 2 ≤ s.length := by
  obtain ⟨c, -, hs⟩ := matchSingle_some h
  subst hs
  simp only [List.append_assoc, List.length_append, List.length_cons, List.length_nil]
  omega

end NotebookTool

namespace NotebookTool

/-! ## Fuel irrelevance and step equations for the string pass -/

theorem stripAux_fuel (n : Nat) : ∀ (m : Nat) (s : List Char),
    s.length ≤ n → s.length ≤ m → stripAux n s = stripAux m s := by
  induction n with
  | zero =>
    intro m s hn _
    have hs : s = [] := List.length_eq_zero.mp (Nat.le_zero.mp hn)
    subst hs
    cases m <;> rfl
  | succ n ih =>
    intro m s hn hm
    cases s with
    | nil => cases m <;> rfl
    | cons x xs =>
      cases m with
      | zero => simp at hm
      | succ k =>
        simp only [List.length_cons] at hn hm
        simp only [stripAux]
        cases h1 : matchTriple dq (x :: xs) with
        | some rest =>
          have hl := matchTriple_some_length h1
          simp only [List.length_cons] at hl
          exact ih k rest (by omega) (by omega)
        | none =>
          cases h2 : matchTriple sq (x :: xs) with
          | some rest =>
            have hl := matchTriple_some_length h2
            simp only [List.length_cons] at hl
            exact ih k rest (by omega) (by omega)
          | none =>
            cases h3 : matchSingle dq (x :: xs) with
            | some p =>
              obtain ⟨mm, rest⟩ := p
              have hl := matchSingle_some_length h3
              simp only [List.length_cons] at hl
              exact congrArg (mm ++ ·) (ih k rest (by omega) (by omega))
            | none =>
              cases h4 : matchSingle sq (x :: xs) with
              | some p =>
                obtain ⟨mm, rest⟩ := p
                have hl := matchSingle_some_length h4
                simp only [List.length_cons] at hl
                exact congrArg (mm ++ ·) (ih k rest (by omega) (by omega))
              | none =>
                exact congrArg (x :: ·) (ih k xs (by omega) (by omega))

theorem stripAux_eq (n : Nat) (s : List Char) (h : s.length ≤ n) :
    stripAux n s = stripStrings s :=
  stripAux_fuel n s.length s h le_rfl

theorem stripStrings_nil : stripStrings [] = [] := rfl

theorem stripStrings_cons_noquote {x : Char} (xs : List Char)
    (h1 : x ≠ dq) (h2 : x ≠ sq) :
    stripStrings (x :: xs) = x :: stripStrings xs := by
  show stripAux (x :: xs).length (x :: xs) = _
  simp only [List.length_cons, stripAux]
  rw [matchTriple_cons_ne _ h1, matchTriple_cons_ne _ h2,
      matchSingle_cons_ne _ h1, matchSingle_cons_ne _ h2]
  rfl

theorem stripStrings_append_plain {t : List Char} (s : List Char)
    (h : ∀ a ∈ t, a ≠ dq ∧ a ≠ sq) :
    stripStrings (t ++ s) = t ++ stripStrings s := by
  induction t with
  | nil => simp
  | cons a t ih =>
    have ha := h a (by simp)
    rw [List.cons_append, stripStrings_cons_noquote _ ha.1 ha.2,
        ih (fun b hb => h b (by simp [hb]))]
    simp

theorem stripStrings_triple {q : Char} (c s : List Char)
    (hq : q = dq ∨ q = sq) (hc : ∀ a ∈ c, a ≠ q) :
    stripStrings ([q, q, q] ++ c ++ [q, q, q] ++ s) = stripStrings s := by
  have hL : [q, q, q] ++ c ++ [q, q, q] ++ s
      = q :: q :: q :: (c ++ [q, q, q] ++ s) := by simp
  rw [hL]
  show stripAux (q :: q :: q :: (c ++ [q, q, q] ++ s)).length _ = _
  have hlen : s.length ≤ (c ++ [q, q, q] ++ s).length + 2 := by
    simp only [List.append_assoc, List.length_append, List.length_cons,
      List.length_nil]
    omega
  simp only [List.length_cons, stripAux]
  rcases hq with rfl | rfl
  · rw [matchTriple_consume c s hc]
    exact stripAux_eq _ _ hlen
  · rw [matchTriple_cons_ne _ (Ne.symm dq_ne_sq), matchTriple_consume c s hc]
    exact stripAux_eq _ _ hlen

theorem matchTriple_single_shape {q : Char} (c s : List Char)
    (hq : q = dq ∨ q = sq) (hc : ∀ a ∈ c, a ≠ q)
    (hs : s = [] ∨ ∃ y ys, s = y :: ys ∧ y ≠ dq ∧ y ≠ sq) :
    matchTriple q (q :: (c ++ [q] ++ s)) = none := by
  cases c with
  | cons a c' =>
    have ha := hc a (by simp)
    have h3 : q :: ((a :: c') ++ [q] ++ s) = q :: a :: (c' ++ [q] ++ s) := by simp
    rw [h3]
    exact matchTriple_second_ne _ _ ha
  | nil =>
    rcases hs with rfl | ⟨y, ys, rfl, hy1, hy2⟩
    · rfl
    · have hyq : y ≠ q := by
        rcases hq with rfl | rfl
        · exact hy1
        · exact hy2
      have h3 : q :: (([] : List Char) ++ [q] ++ (y :: ys)) = q :: q :: y :: ys := by
        simp
      rw [h3]
      exact matchTriple_third_ne _ _ _ hyq

theorem stripStrings_single {q : Char} (c s : List Char)
    (hq : q = dq ∨ q = sq) (hc : ∀ a ∈ c, a ≠ q)
    (hs : s = [] ∨ ∃ y ys, s = y :: ys ∧ y ≠ dq ∧ y ≠ sq) :
    stripStrings ((q :: (c ++ [q])) ++ s) = (q :: (c ++ [q])) ++ stripStrings s := by
  have hL : (q :: (c ++ [q])) ++ s = q :: (c ++ [q] ++ s) := by simp
  rw [hL]
  show stripAux (q :: (c ++ [q] ++ s)).length _ = _
  have hlen : s.length ≤ (c ++ [q] ++ s).length := by
    simp only [List.append_assoc, List.length_append, List.length_cons,
      List.length_nil]
    omega
  simp only [List.length_cons, stripAux]
  rcases hq with rfl | rfl
  · rw [matchTriple_single_shape c s (Or.inl rfl) hc hs,
      matchTriple_cons_ne _ dq_ne_sq,
      matchSingle_consume c s hc]
    exact congrArg ((dq :: (c ++ [dq])) ++ ·) (stripAux_eq _ _ hlen)
  · rw [matchTriple_cons_ne _ (Ne.symm dq_ne_sq),
      matchTriple_single_shape c s (Or.inr rfl) hc hs,
      matchSingle_cons_ne _ (Ne.symm dq_ne_sq),
      matchSingle_consume c s hc]
    exact congrArg ((sq :: (c ++ [sq])) ++ ·) (stripAux_eq _ _ hlen)

end NotebookTool

namespace NotebookTool

/-! ## Character membership: neither pass introduces new characters -/

theorem mem_stripAux {a : Char} : ∀ (n : Nat) (s : List Char),
    a ∈ stripAux n s → a ∈ s := by
  intro n
  induction n with
  | zero => intro s hm; exact hm
  | succ n ih =>
    intro s hm
    cases s with
    | nil =>
      simp only [stripAux] at hm
      simp at hm
    | cons x xs =>
      simp only [stripAux] at hm
      cases h1 : matchTriple dq (x :: xs) with
      | some rest =>
        rw [h1] at hm
        obtain ⟨c, hc⟩ := matchTriple_some h1
        rw [hc]
        have := ih rest hm
        simp [this]
      | none =>
        rw [h1] at hm
        cases h2 : matchTriple sq (x :: xs) with
        | some rest =>
          rw [h2] at hm
          obtain ⟨c, hc⟩ := matchTriple_some h2
          rw [hc]
          have := ih rest hm
          simp [this]
        | none =>
          rw [h2] at hm
          cases h3 : matchSingle dq (x :: xs) with
          | some p =>
            obtain ⟨mm, rest⟩ := p
            rw [h3] at hm
            obtain ⟨c, hmeq, hseq⟩ := matchSingle_some h3
            rw [hseq]
            rcases List.mem_append.mp hm with hma | hmr
            · rw [hmeq] at hma
              simp only [List.mem_cons, List.mem_append] at hma ⊢
              tauto
            · have := ih rest hmr
              simp [this]
          | none =>
            rw [h3] at hm
            cases h4 : matchSingle sq (x :: xs) with
            | some p =>
              obtain ⟨mm, rest⟩ := p
              rw [h4] at hm
              obtain ⟨c, hmeq, hseq⟩ := matchSingle_some h4
              rw [hseq]
              rcases List.mem_append.mp hm with hma | hmr
              · rw [hmeq] at hma
                simp only [List.mem_cons, List.mem_append] at hma ⊢
                tauto
              · have := ih rest hmr
                simp [this]
            | none =>
              rw [h4] at hm
              rcases List.mem_cons.mp hm with rfl | hmr
              · simp
              · simp [ih xs hmr]

theorem mem_stripStrings {a : Char} {s : List Char} (h : a ∈ stripStrings s) :
    a ∈ s :=
  mem_stripAux s.length s h

/-! ## Facts about the comment pass -/

theorem hash_not_mem_rcAux : ∀ (b : Bool) (s : List Char), '#' ∉ rcAux b s := by
  intro b s
  induction s generalizing b with
  | nil => simp [rcAux]
  | cons x xs ih =>
    rw [rcAux]
    by_cases h1 : x = '\n'
    · rw [if_pos h1]
      intro hmem
      rcases List.mem_cons.mp hmem with hh | hh
      · exact absurd hh (by decide)
      · exact ih false hh
    · rw [if_neg h1]
      by_cases h2 : x = '#'
      · rw [if_pos h2]
        exact ih true
      · rw [if_neg h2]
        cases b with
        | true =>
          simp only [if_true]
          exact ih true
        | false =>
          simp only [Bool.false_eq_true, if_false]
          intro hmem
          rcases List.mem_cons.mp hmem with hh | hh
          · exact h2 hh.symm
          · exact ih false hh

theorem rcAux_eq_self : ∀ (s : List Char), '#' ∉ s → rcAux false s = s := by
  intro s
  induction s with
  | nil => intro _; rfl
  | cons x xs ih =>
    intro h
    have hx : x ≠ '#' := fun hh => h (by simp [hh])
    have hxs : '#' ∉ xs := fun hh => h (by simp [hh])
    rw [rcAux]
    by_cases h1 : x = '\n'
    · rw [if_pos h1, ih hxs, h1]
    · rw [if_neg h1, if_neg hx, ih hxs]
      simp

theorem hash_not_mem_remove (s : List Char) :
    '#' ∉ remove_comments_and_docstrings s := by
  intro h
  exact hash_not_mem_rcAux false s (mem_stripStrings h)

end NotebookTool

namespace NotebookTool

/-!
## Line-based characterization of the comment pass

`re.sub(r'#.*$', '', s, flags=re.MULTILINE)` is, line by line: keep the
characters before the first `#`, drop the rest of the line, keep the
newlines.  We state this with an explicit split/join pair.
-/

theorem splitNL_ne_nil : ∀ s : List Char, splitNL s ≠ [] := by
  intro s
  cases s with
  | nil => simp [splitNL]
  | cons x xs =>
    rw [splitNL]
    by_cases h : x = '\n'
    · simp [h]
    · rw [if_neg h]
      cases splitNL xs <;> simp

theorem joinNL_cons_of_ne (l : List Char) {ls : List (List Char)} (h : ls ≠ []) :
    joinNL (l :: ls) = l ++ '\n' :: joinNL ls := by
  cases ls with
  | nil => exact absurd rfl h
  | cons a as => rfl

theorem joinNL_singleton (l : List Char) : joinNL [l] = l := by
  rw [joinNL]
  simp

theorem joinNL_cons_head (a : Char) (l : List Char) (ls : List (List Char)) :
    joinNL ((a :: l) :: ls) = a :: joinNL (l :: ls) := by
  rw [joinNL, joinNL]
  simp

theorem dropHash_cons_hash (l : List Char) : dropHash ('#' :: l) = [] := by
  simp [dropHash]

theorem dropHash_cons_ne {x : Char} (l : List Char) (h : x ≠ '#') :
    dropHash (x :: l) = x :: dropHash l := by
  simp [dropHash, h]

theorem rcAux_line_spec : ∀ s : List Char,
    rcAux false s = joinNL ((splitNL s).map dropHash) ∧
    rcAux true s = joinNL ([] :: ((splitNL s).map dropHash).tail) := by
  intro s
  induction s with
  | nil => constructor <;> rfl
  | cons x xs ih =>
    obtain ⟨ihF, ihT⟩ := ih
    have hM : (splitNL xs).map dropHash ≠ [] := by
      intro hh
      exact splitNL_ne_nil xs (List.map_eq_nil_iff.mp hh)
    obtain ⟨l, ls, hsp⟩ : ∃ l ls, splitNL xs = l :: ls := by
      cases h : splitNL xs with
      | nil => exact absurd h (splitNL_ne_nil xs)
      | cons a as => exact ⟨a, as, rfl⟩
    by_cases h1 : x = '\n'
    · subst h1
      constructor
      · rw [rcAux, if_pos rfl, ihF, splitNL, if_pos rfl, List.map_cons,
          joinNL_cons_of_ne _ hM]
        rfl
      · rw [rcAux, if_pos rfl, ihF, splitNL, if_pos rfl, List.map_cons,
          List.tail_cons, joinNL_cons_of_ne _ hM]
        rfl
    · have hsplit : splitNL (x :: xs) = (x :: l) :: ls := by
        rw [splitNL, if_neg h1, hsp]
      by_cases h2 : x = '#'
      · subst h2
        constructor
        · rw [rcAux, if_neg h1, if_pos rfl, ihT, hsp, hsplit]
          simp only [List.map_cons, List.tail_cons, dropHash_cons_hash]
        · rw [rcAux, if_neg h1, if_pos rfl, ihT, hsp, hsplit]
          simp only [List.map_cons, List.tail_cons]
      · constructor
        · rw [rcAux, if_neg h1, if_neg h2]
          simp only [Bool.false_eq_true, if_false]
          rw [ihF, hsp, hsplit]
          simp only [List.map_cons]
          rw [dropHash_cons_ne _ h2, joinNL_cons_head]
        · rw [rcAux, if_neg h1, if_neg h2]
          simp only [if_true]
          rw [ihT, hsp, hsplit]
          simp only [List.map_cons, List.tail_cons]

theorem removeComments_line (s : List Char) :
    removeComments s = joinNL ((splitNL s).map dropHash) :=
  (rcAux_line_spec s).1

end NotebookTool

namespace NotebookTool

theorem renderChunks_cons_head (a : Char) (t : List Char)
    (rest : List (Quoted × List Char)) :
    renderChunks (a :: t) rest = a :: renderChunks t rest := by
  cases rest with
  | nil => rfl
  | cons p rs =>
    obtain ⟨qd, u⟩ := p
    simp [renderChunks]

theorem stripStrings_plain (t : List Char) (h : plainOk t) :
    stripStrings t = t := by
  have h2 := stripStrings_append_plain (t := t) []
    (fun a ha => ⟨(h a ha).1, (h a ha).2.1⟩)
  simpa [stripStrings_nil] using h2

theorem stripStrings_chunks : ∀ (rest : List (Quoted × List Char))
    (t0 : List Char), plainOk t0 → chunksOk rest →
    stripStrings (renderChunks t0 rest) = keptChunks t0 rest := by
  intro rest
  induction rest with
  | nil =>
    intro t0 h0 _
    exact stripStrings_plain t0 h0
  | cons p rs ih =>
    obtain ⟨qd, t⟩ := p
    intro t0 h0 hok
    have hok2 : qd.ok ∧ plainOk t ∧ (rs = [] ∨ t ≠ []) ∧ chunksOk rs := hok
    obtain ⟨hq, ht, hsep, hrs⟩ := hok2
    rw [renderChunks, keptChunks, List.append_assoc,
      stripStrings_append_plain _ (fun a ha => ⟨(h0 a ha).1, (h0 a ha).2.1⟩)]
    cases qd with
    | tripleDoc q c =>
      have hq2 : (q = dq ∨ q = sq) ∧ plainOk c := hq
      obtain ⟨hq', hc⟩ := hq2
      have hcq : ∀ a ∈ c, a ≠ q := by
        intro a ha
        rcases hq' with rfl | rfl
        · exact (hc a ha).1
        · exact (hc a ha).2.1
      have hr : Quoted.render (.tripleDoc q c) ++ renderChunks t rs
          = [q, q, q] ++ c ++ [q, q, q] ++ renderChunks t rs := by
        simp [Quoted.render]
      rw [hr, stripStrings_triple c _ hq' hcq, ih t ht hrs]
      simp [Quoted.kept]
    | strLit q c =>
      have hq2 : (q = dq ∨ q = sq) ∧ plainOk c := hq
      obtain ⟨hq', hc⟩ := hq2
      have hcq : ∀ a ∈ c, a ≠ q := by
        intro a ha
        rcases hq' with rfl | rfl
        · exact (hc a ha).1
        · exact (hc a ha).2.1
      have hshape : renderChunks t rs = [] ∨
          ∃ y ys, renderChunks t rs = y :: ys ∧ y ≠ dq ∧ y ≠ sq := by
        cases t with
        | nil =>
          rcases hsep with hrs' | hne
          · left
            rw [hrs']
            rfl
          · exact absurd rfl hne
        | cons a t' =>
          right
          exact ⟨a, renderChunks t' rs, renderChunks_cons_head a t' rs,
            (ht a (by simp)).1, (ht a (by simp)).2.1⟩
      have hr : Quoted.render (.strLit q c) ++ renderChunks t rs
          = (q :: (c ++ [q])) ++ renderChunks t rs := rfl
      rw [hr, stripStrings_single c _ hq' hcq hshape, ih t ht hrs]
      simp [Quoted.kept]

theorem Quoted.no_hash {qd : Quoted} (h : qd.ok) : '#' ∉ qd.render := by
  cases qd with
  | tripleDoc q c =>
    have h2 : (q = dq ∨ q = sq) ∧ plainOk c := h
    have hqh : ('#' : Char) ≠ q := by
      rcases h2.1 with rfl | rfl <;> decide
    intro hm
    rcases List.mem_append.mp hm with hm1 | hm3
    · rcases List.mem_append.mp hm1 with hm0 | hmc
      · simp only [List.mem_cons, List.not_mem_nil, or_false] at hm0
        rcases hm0 with h | h | h <;> exact hqh h
      · exact (h2.2 '#' hmc).2.2 rfl
    · simp only [List.mem_cons, List.not_mem_nil, or_false] at hm3
      rcases hm3 with h | h | h <;> exact hqh h
  | strLit q c =>
    have h2 : (q = dq ∨ q = sq) ∧ plainOk c := h
    have hqh : ('#' : Char) ≠ q := by
      rcases h2.1 with rfl | rfl <;> decide
    intro hm
    rcases List.mem_cons.mp hm with h | hm2
    · exact hqh h
    · rcases List.mem_append.mp hm2 with hmc | hm0
      · exact (h2.2 '#' hmc).2.2 rfl
      · simp only [List.mem_singleton] at hm0
        exact hqh hm0

theorem renderChunks_no_hash : ∀ (rest : List (Quoted × List Char))
    (t0 : List Char), plainOk t0 → chunksOk rest →
    '#' ∉ renderChunks t0 rest := by
  intro rest
  induction rest with
  | nil =>
    intro t0 h0 _ hmem
    exact (h0 '#' hmem).2.2 rfl
  | cons p rs ih =>
    obtain ⟨qd, t⟩ := p
    intro t0 h0 hok hmem
    have hok2 : qd.ok ∧ plainOk t ∧ (rs = [] ∨ t ≠ []) ∧ chunksOk rs := hok
    obtain ⟨hq, ht, -, hrs⟩ := hok2
    rw [renderChunks] at hmem
    rcases List.mem_append.mp hmem with hm1 | hm2
    · rcases List.mem_append.mp hm1 with hm0 | hmq
      · exact (h0 '#' hm0).2.2 rfl
      · exact Quoted.no_hash hq hmq
    · exact ih t ht hrs hm2

end NotebookTool

namespace NotebookTool

/-! ## Structure of the variant A driver -/

theorem codeCellsIn_append (l1 l2 : List Cell) :
    codeCellsIn (l1 ++ l2) = codeCellsIn l1 + codeCellsIn l2 :=
  List.countP_append _ _ _

theorem codeCellsIn_map_code : ∀ l : List (List Char),
    codeCellsIn (l.map Cell.code) = l.length := by
  intro l
  induction l with
  | nil => rfl
  | cons a l ih =>
    simp only [List.map_cons, codeCellsIn, List.countP_cons] at ih ⊢
    simp [ih, Cell.isCode]

theorem processFileA_cells (st : NB) (f : FileA) :
    (processFileA st f).cells = st.cells ++ fileBlockA f := by
  simp only [processFileA, fileBlockA]
  by_cases h1 : endsWithPy f.name = true
  · simp only [if_pos h1]
    by_cases h2 : (extract_functions_and_classes_from_file f.body).isEmpty = true
    · simp [h2]
    · simp [h2]
  · simp [h1]

theorem countP_isCode_code (l : List (List Char)) :
    List.countP (Cell.isCode ∘ Cell.code) l = l.length := by
  induction l with
  | nil => rfl
  | cons a l ih => simp [List.countP_cons, ih, Cell.isCode, Function.comp]

theorem processFileA_count (st : NB) (f : FileA) :
    (processFileA st f).codeCellCount
      = st.codeCellCount + codeCellsIn (fileBlockA f) := by
  simp only [processFileA, fileBlockA]
  by_cases h1 : endsWithPy f.name = true
  · simp only [if_pos h1]
    by_cases h2 : (extract_functions_and_classes_from_file f.body).isEmpty = true
    · simp [h2, codeCellsIn]
    · simp [h2, codeCellsIn, List.countP_cons, Cell.isCode, List.countP_map,
        countP_isCode_code]
  · simp [h1, codeCellsIn]

theorem foldl_processFileA_cells : ∀ (fs : List FileA) (st : NB),
    (fs.foldl processFileA st).cells = st.cells ++ (fs.map fileBlockA).flatten := by
  intro fs
  induction fs with
  | nil => intro st; simp
  | cons f fs ih =>
    intro st
    simp only [List.foldl_cons, List.map_cons, List.flatten_cons]
    rw [ih, processFileA_cells]
    simp [List.append_assoc]

theorem foldl_processFileA_count : ∀ (fs : List FileA) (st : NB),
    (fs.foldl processFileA st).codeCellCount
      = st.codeCellCount + codeCellsIn ((fs.map fileBlockA).flatten) := by
  intro fs
  induction fs with
  | nil => intro st; simp [codeCellsIn]
  | cons f fs ih =>
    intro st
    simp only [List.foldl_cons, List.map_cons, List.flatten_cons]
    rw [ih, processFileA_count, codeCellsIn_append]
    omega

theorem processDirA_cells (st : NB) (d : DirA) :
    (processDirA st d).cells = st.cells ++ dirCellsA d :=
  foldl_processFileA_cells d.files st

theorem processDirA_count (st : NB) (d : DirA) :
    (processDirA st d).codeCellCount
      = st.codeCellCount + codeCellsIn (dirCellsA d) :=
  foldl_processFileA_count d.files st

theorem driverAFrom_cons (st : NB) (e : DirA × List Char)
    (es : List (DirA × List Char)) :
    driverAFrom st (e :: es) = driverAFrom (stepA st e) es := rfl

theorem driverAFrom_cells : ∀ (entries : List (DirA × List Char)) (st : NB),
    (driverAFrom st entries).cells = st.cells ++ walkCellsA entries := by
  intro entries
  induction entries with
  | nil => intro st; simp [driverAFrom, walkCellsA]
  | cons e es ih =>
    intro st
    obtain ⟨d, ans⟩ := e
    rw [driverAFrom_cons, ih]
    simp only [walkCellsA, List.map_cons, List.flatten_cons]
    by_cases h : pyLower ans = yesL
    · simp only [stepA, if_pos h]
      rw [processDirA_cells]
      simp [walkCellsA, List.append_assoc]
    · simp only [stepA, if_neg h]
      simp [walkCellsA]

theorem driverAFrom_count : ∀ (entries : List (DirA × List Char)) (st : NB),
    (driverAFrom st entries).codeCellCount
      = st.codeCellCount + codeCellsIn (walkCellsA entries) := by
  intro entries
  induction entries with
  | nil => intro st; simp [driverAFrom, walkCellsA, codeCellsIn]
  | cons e es ih =>
    intro st
    obtain ⟨d, ans⟩ := e
    rw [driverAFrom_cons, ih]
    simp only [walkCellsA, List.map_cons, List.flatten_cons, codeCellsIn_append]
    by_cases h : pyLower ans = yesL
    · simp only [stepA, if_pos h]
      rw [processDirA_count]
      omega
    · simp only [stepA, if_neg h]
      simp [walkCellsA, codeCellsIn]

theorem driverBFrom_cons (st : NBB) (e : DirB × List Char)
    (es : List (DirB × List Char)) :
    driverBFrom st (e :: es) = driverBFrom (stepB st e) es := rfl

theorem processFileB_inv (root : List Char) (st : NBB) (f : FileB)
    (h : st.codeCellCount = codeCellsIn st.cells) :
    (processFileB root st f).codeCellCount
      = codeCellsIn (processFileB root st f).cells := by
  rw [processFileB]
  by_cases h1 : endsWithPy f.name = true
  · simp only [if_pos h1]
    by_cases h2 :
        (remove_comments_and_docstrings_mf f.content).isEmpty = true
    · simp [h2, h]
    · simp [h2, h, codeCellsIn, List.countP_append, List.countP_cons,
        Cell.isCode]
  · simp [h1, h]

theorem foldl_processFileB_inv (root : List Char) : ∀ (fs : List FileB)
    (st : NBB), st.codeCellCount = codeCellsIn st.cells →
    (fs.foldl (processFileB root) st).codeCellCount
      = codeCellsIn (fs.foldl (processFileB root) st).cells := by
  intro fs
  induction fs with
  | nil => intro st h; exact h
  | cons f fs ih =>
    intro st h
    simp only [List.foldl_cons]
    exact ih _ (processFileB_inv root st f h)

theorem stepB_inv (st : NBB) (e : DirB × List Char)
    (h : st.codeCellCount = codeCellsIn st.cells) :
    (stepB st e).codeCellCount = codeCellsIn (stepB st e).cells := by
  rw [stepB]
  by_cases hc : pyLower e.2 = yesL
  · rw [if_pos hc]
    exact foldl_processFileB_inv e.1.root e.1.files st h
  · rw [if_neg hc]
    exact h

theorem driverBFrom_inv : ∀ (entries : List (DirB × List Char)) (st : NBB),
    st.codeCellCount = codeCellsIn st.cells →
    (driverBFrom st entries).codeCellCount
      = codeCellsIn (driverBFrom st entries).cells := by
  intro entries
  induction entries with
  | nil => intro st h; exact h
  | cons e es ih =>
    intro st h
    rw [driverBFrom_cons]
    exact ih _ (stepB_inv st e h)

end NotebookTool

namespace NotebookTool

/-! ## Remaining helper lemmas -/

theorem mem_rcAux {a : Char} : ∀ (b : Bool) (s : List Char),
    a ∈ rcAux b s → a ∈ s := by
  intro b s
  induction s generalizing b with
  | nil => simp [rcAux]
  | cons x xs ih =>
    intro h
    rw [rcAux] at h
    by_cases h1 : x = '\n'
    · rw [if_pos h1] at h
      rcases List.mem_cons.mp h with rfl | h'
      · simp [h1]
      · exact List.mem_cons_of_mem _ (ih false h')
    · rw [if_neg h1] at h
      by_cases h2 : x = '#'
      · rw [if_pos h2] at h
        exact List.mem_cons_of_mem _ (ih true h)
      · rw [if_neg h2] at h
        cases b with
        | true =>
          simp only [if_true] at h
          exact List.mem_cons_of_mem _ (ih true h)
        | false =>
          simp only [Bool.false_eq_true, if_false] at h
          rcases List.mem_cons.mp h with rfl | h'
          · simp
          · exact List.mem_cons_of_mem _ (ih false h')

theorem stripStrings_noquote (t : List Char) (h : ∀ a ∈ t, a ≠ dq ∧ a ≠ sq) :
    stripStrings t = t := by
  have h2 := stripStrings_append_plain (t := t) [] h
  simpa [stripStrings_nil] using h2

theorem extract_eq_filter_map : ∀ body : List Stmt,
    extract_functions_and_classes_from_file body
      = (body.filter fun it => isDeclKind it.kind).map
          (fun it => remove_comments_and_docstrings it.src) := by
  intro body
  induction body with
  | nil => rfl
  | cons it body ih =>
    simp only [extract_functions_and_classes_from_file, List.filterMap_cons] at ih ⊢
    by_cases h : isDeclKind it.kind = true
    · simp [h, List.filter_cons, ih]
    · simp [h, List.filter_cons, ih]

end NotebookTool

namespace NotebookTool

/-! ## The claims -/

/-- Claim C1: for a parsed file whose module body contains exactly `N`
top-level function/class declarations (synchronous or asynchronous functions
or classes), the variant A extractor returns exactly `N` fragments, in
source order, each being the declaration's rendered source passed through
the normalizer; with zero such declarations it returns the empty
sequence. -/
theorem claim_C1 (body : List Stmt) (N : Nat)
    (h : (body.countP fun it => isDeclKind it.kind) = N) :
    (extract_functions_and_classes_from_file body).length = N ∧
    extract_functions_and_classes_from_file body
      = (body.filter fun it => isDeclKind it.kind).map
          (fun it => remove_comments_and_docstrings it.src) ∧
    (N = 0 → extract_functions_and_classes_from_file body = []) := by
  have hlen : (extract_functions_and_classes_from_file body).length = N := by
    rw [extract_eq_filter_map body, List.length_map,
      ← List.countP_eq_length_filter, h]
  refine ⟨hlen, extract_eq_filter_map body, ?_⟩
  intro h0
  exact List.length_eq_zero.mp (by rw [hlen, h0])

/-- Claim C1 witness: on a concrete three-statement module body with two
declarations the extractor returns the two normalized declaration sources. -/
theorem claim_C1_witness :
    (extract_functions_and_classes_from_file demoBody).length = 2 ∧
    extract_functions_and_classes_from_file demoBody
      = (demoBody.filter fun it => isDeclKind it.kind).map
          (fun it => remove_comments_and_docstrings it.src) :=
  ⟨(claim_C1 demoBody 2 (by decide)).1, (claim_C1 demoBody 2 (by decide)).2.1⟩

/-- Claim C2 counterexample: on the input `'''d'''"a#b"` the normalizer
returns `"a` — the ordinary double-quoted literal `"a#b"` is not preserved
verbatim (the comment pass fires inside it first), refuting the claim for
arbitrary input strings. -/
theorem claim_C2_counterexample :
    remove_comments_and_docstrings cePreserve = [dq, 'a'] ∧
    ¬ ([dq, 'a', '#', 'b', dq] <:+: remove_comments_and_docstrings cePreserve) := by
  constructor
  · decide
  · decide

/-- Claim C2 (amended): for every input that decomposes into plain text free
of quote characters and comment markers, triple-quoted blocks, and ordinary
string literals whose contents are also free of them, with consecutive
quoted segments separated by non-empty plain text, the normalizer removes
each triple-quoted block entirely and preserves the plain text and every
ordinary string literal verbatim. -/
theorem claim_C2 (t0 : List Char) (rest : List (Quoted × List Char))
    (h0 : plainOk t0) (hok : chunksOk rest) :
    remove_comments_and_docstrings (renderChunks t0 rest)
      = keptChunks t0 rest := by
  rw [remove_comments_and_docstrings, removeComments,
    rcAux_eq_self _ (renderChunks_no_hash rest t0 h0 hok)]
  exact stripStrings_chunks rest t0 h0 hok

/-- Helper for the claim C2 witness: the demonstration decomposition is
well-formed. -/
theorem demoChunks_ok : chunksOk demoChunks :=
  ⟨⟨Or.inr rfl, by decide⟩, by decide, Or.inr (by decide),
   ⟨Or.inl rfl, by decide⟩, by decide, Or.inl rfl, trivial⟩

/-- Claim C2 witness: on `v = '''doc''' x = "ab"` the normalizer removes the
triple-quoted block and keeps the plain text and the literal `"ab"`. -/
theorem claim_C2_witness :
    remove_comments_and_docstrings (renderChunks demoT0 demoChunks)
      = keptChunks demoT0 demoChunks :=
  claim_C2 demoT0 demoChunks (by decide) demoChunks_ok

/-- Claim C3 counterexample: on the input `""'''a'''"b"""` one application
of the normalizer yields `"""b"""` and a second application yields the empty
string, refuting idempotence. -/
theorem claim_C3_counterexample :
    remove_comments_and_docstrings (remove_comments_and_docstrings ceIdem)
      ≠ remove_comments_and_docstrings ceIdem := by
  decide

/-- Claim C3 (amended): the comment pass cannot re-fire — the normalizer's
output never contains a comment marker, so applying the normalizer twice
equals applying only the string pass to the first output.  Full idempotence
fails (see the counterexample) because the string pass can splice preserved
quotes into a new triple-quoted match. -/
theorem claim_C3 (s : List Char) :
    remove_comments_and_docstrings (remove_comments_and_docstrings s)
      = stripStrings (remove_comments_and_docstrings s) ∧
    '#' ∉ remove_comments_and_docstrings s := by
  refine ⟨?_, hash_not_mem_remove s⟩
  rw [remove_comments_and_docstrings, removeComments,
    rcAux_eq_self _ (hash_not_mem_remove s)]

/-- Claim C3 witness: the amended statement at a concrete input. -/
theorem claim_C3_witness :
    remove_comments_and_docstrings (remove_comments_and_docstrings
        (String.toList "a = 1 # note"))
      = stripStrings (remove_comments_and_docstrings
        (String.toList "a = 1 # note")) :=
  (claim_C3 (String.toList "a = 1 # note")).1

/-- Claim C4: on input containing no quote characters (so its only
comment-like or quote-like content is line comments), the normalizer output
is the input's lines each truncated at its first `#`, rejoined with the
original newlines — every comment segment removed, all other text
byte-for-byte — and the output contains no comment marker. -/
theorem claim_C4 (s : List Char) (h : ∀ a ∈ s, a ≠ dq ∧ a ≠ sq) :
    remove_comments_and_docstrings s = joinNL ((splitNL s).map dropHash) ∧
    '#' ∉ remove_comments_and_docstrings s := by
  refine ⟨?_, hash_not_mem_remove s⟩
  have hq : ∀ a ∈ removeComments s, a ≠ dq ∧ a ≠ sq :=
    fun a ha => h a (mem_rcAux false s ha)
  rw [remove_comments_and_docstrings, stripStrings_noquote _ hq,
    removeComments_line]

/-- Claim C4 witness: the line truncation at a concrete two-line input. -/
theorem claim_C4_witness :
    remove_comments_and_docstrings (String.toList "a#b\nc #d\ne")
      = joinNL ((splitNL (String.toList "a#b\nc #d\ne")).map dropHash) :=
  (claim_C4 (String.toList "a#b\nc #d\ne") (by decide)).1

/-- Claim C5: a directory's own file list is processed exactly when the
lowercased prompt answer equals the exact string `yes` (in both variants),
and a lowercased answer equals `yes` only when the answer carries no
surrounding characters around `yes`. -/
theorem claim_C5 :
    (∀ (st : NB) (d : DirA) (ans : List Char)
        (rest : List (DirA × List Char)),
      driverAFrom st ((d, ans) :: rest)
        = if pyLower ans = yesL then driverAFrom (processDirA st d) rest
          else driverAFrom st rest) ∧
    (∀ (st : NBB) (d : DirB) (ans : List Char)
        (rest : List (DirB × List Char)),
      driverBFrom st ((d, ans) :: rest)
        = if pyLower ans = yesL then driverBFrom (processDirB st d) rest
          else driverBFrom st rest) ∧
    (∀ pre suf : List Char,
      pyLower (pre ++ yesL ++ suf) = yesL → pre = [] ∧ suf = []) := by
  refine ⟨?_, ?_, ?_⟩
  · intro st d ans rest
    rw [driverAFrom_cons]
    by_cases h : pyLower ans = yesL
    · rw [if_pos h]
      simp [stepA, h]
    · rw [if_neg h]
      simp [stepA, h]
  · intro st d ans rest
    rw [driverBFrom_cons]
    by_cases h : pyLower ans = yesL
    · rw [if_pos h]
      simp [stepB, h]
    · rw [if_neg h]
      simp [stepB, h]
  · intro pre suf h
    have hl : (pyLower (pre ++ yesL ++ suf)).length = yesL.length := by rw [h]
    simp only [pyLower, List.length_map, List.length_append] at hl
    constructor
    · exact List.length_eq_zero.mp (by omega)
    · exact List.length_eq_zero.mp (by omega)

/-- Claim C5 witness: the gate at the concrete answer `YES`, and the
no-surrounding-characters fact at the empty paddings. -/
theorem claim_C5_witness :
    (driverAFrom emptyNB [(demoDirA, String.toList "YES")]
      = if pyLower (String.toList "YES") = yesL
        then driverAFrom (processDirA emptyNB demoDirA) []
        else driverAFrom emptyNB []) ∧
    (([] : List Char) = [] ∧ ([] : List Char) = []) :=
  ⟨claim_C5.1 emptyNB demoDirA (String.toList "YES") [],
   claim_C5.2.2 [] [] (by decide)⟩

/-- Claim C6: declining one directory's prompt skips only that directory's
own files; the walk still reaches the next directory, whose own confirmed
answer gets its files processed. -/
theorem claim_C6 (st : NB) (d1 : DirA) (a1 : List Char) (d2 : DirA)
    (a2 : List Char) (rest : List (DirA × List Char))
    (h1 : pyLower a1 ≠ yesL) (h2 : pyLower a2 = yesL) :
    driverAFrom st ((d1, a1) :: (d2, a2) :: rest)
      = driverAFrom (processDirA st d2) rest := by
  rw [driverAFrom_cons, driverAFrom_cons]
  simp [stepA, h1, h2]

/-- Claim C6 witness: declining the root with `no` and confirming the
subdirectory with `YES` processes exactly the subdirectory's files. -/
theorem claim_C6_witness :
    driverAFrom emptyNB
        [(demoDirA, String.toList "no"), (demoDirA2, String.toList "YES")]
      = driverAFrom (processDirA emptyNB demoDirA2) [] :=
  claim_C6 emptyNB demoDirA (String.toList "no") demoDirA2
    (String.toList "YES") [] (by decide) (by decide)

/-- Claim C7: for every processed `.py` file in either driver — variant A
(`src/main.py`) and variant B (`src/making-file.py`) — a non-empty
extraction result appends exactly one heading cell followed by one code
cell per fragment (variant B has a single whole-file fragment) and adds the
fragment count to the counter; a file whose extraction result is empty
appends no cells and leaves the counter unchanged; and after any walk, in
either variant, the reported counter equals the number of code cells in the
notebook. -/
theorem claim_C7 :
    (∀ (st : NB) (f : FileA), endsWithPy f.name = true →
      extract_functions_and_classes_from_file f.body ≠ [] →
      processFileA st f =
        { cells := st.cells ++ [Cell.markdown (headerA f.name)]
            ++ (extract_functions_and_classes_from_file f.body).map Cell.code,
          codeCellCount := st.codeCellCount
            + (extract_functions_and_classes_from_file f.body).length }) ∧
    (∀ (st : NB) (f : FileA),
      extract_functions_and_classes_from_file f.body = [] →
      processFileA st f = st) ∧
    (∀ entries : List (DirA × List Char),
      (create_notebook_from_python_files entries).codeCellCount
        = codeCellsIn (create_notebook_from_python_files entries).cells) ∧
    (∀ (root : List Char) (st : NBB) (f : FileB), endsWithPy f.name = true →
      remove_comments_and_docstrings_mf f.content ≠ [] →
      (processFileB root st f).cells
        = st.cells ++ [Cell.markdown (headerB f.name (pathJoin root f.name)),
            Cell.code (remove_comments_and_docstrings_mf f.content)] ∧
      (processFileB root st f).codeCellCount = st.codeCellCount + 1) ∧
    (∀ (root : List Char) (st : NBB) (f : FileB),
      remove_comments_and_docstrings_mf f.content = [] →
      (processFileB root st f).cells = st.cells ∧
      (processFileB root st f).codeCellCount = st.codeCellCount) ∧
    (∀ entries : List (DirB × List Char),
      (create_notebook_from_python_files_B entries).codeCellCount
        = codeCellsIn (create_notebook_from_python_files_B entries).cells) := by
  refine ⟨?_, ?_, ?_, ?_, ?_, ?_⟩
  · intro st f h1 h2
    simp [processFileA, h1, List.isEmpty_iff, h2]
  · intro st f h
    simp [processFileA, h, List.isEmpty_iff]
  · intro entries
    rw [create_notebook_from_python_files, driverAFrom_count entries,
      driverAFrom_cells entries]
    simp [codeCellsIn]
  · intro root st f h1 h2
    constructor
    · simp [processFileB, h1, List.isEmpty_iff, h2]
    · simp [processFileB, h1, List.isEmpty_iff, h2]
  · intro root st f h
    by_cases h1 : endsWithPy f.name = true
    · constructor
      · simp [processFileB, h1, h, List.isEmpty_iff]
      · simp [processFileB, h1, h, List.isEmpty_iff]
    · constructor
      · simp [processFileB, h1]
      · simp [processFileB, h1]
  · intro entries
    exact driverBFrom_inv entries
      { cells := [], codeCellCount := 0, log := [] } rfl

/-- Claim C7 witness: the six parts at concrete data — a variant A file
with one declaration, one with none, the variant A demonstration walk, a
variant B file with non-empty normalized content, one whose normalized
content is empty, and the variant B demonstration walk. -/
theorem claim_C7_witness :
    (processFileA emptyNB demoFileA =
      { cells := emptyNB.cells ++ [Cell.markdown (headerA demoFileA.name)]
          ++ (extract_functions_and_classes_from_file demoFileA.body).map
              Cell.code,
        codeCellCount := emptyNB.codeCellCount
          + (extract_functions_and_classes_from_file demoFileA.body).length }) ∧
    processFileA emptyNB demoFileA0 = emptyNB ∧
    ((create_notebook_from_python_files demoEntriesA).codeCellCount
      = codeCellsIn (create_notebook_from_python_files demoEntriesA).cells) ∧
    ((processFileB (String.toList "r") emptyNBB demoFileB).cells
      = emptyNBB.cells
        ++ [Cell.markdown (headerB demoFileB.name
              (pathJoin (String.toList "r") demoFileB.name)),
            Cell.code (remove_comments_and_docstrings_mf demoFileB.content)] ∧
      (processFileB (String.toList "r") emptyNBB demoFileB).codeCellCount
        = emptyNBB.codeCellCount + 1) ∧
    ((processFileB (String.toList "r") emptyNBB demoFileB0).cells
        = emptyNBB.cells ∧
      (processFileB (String.toList "r") emptyNBB demoFileB0).codeCellCount
        = emptyNBB.codeCellCount) ∧
    (create_notebook_from_python_files_B demoEntriesB).codeCellCount
      = codeCellsIn (create_notebook_from_python_files_B demoEntriesB).cells :=
  ⟨claim_C7.1 emptyNB demoFileA (by decide) (by decide),
   claim_C7.2.1 emptyNB demoFileA0 (by decide),
   claim_C7.2.2.1 demoEntriesA,
   claim_C7.2.2.2.1 (String.toList "r") emptyNBB demoFileB (by decide)
     (by decide),
   claim_C7.2.2.2.2.1 (String.toList "r") emptyNBB demoFileB0 (by decide),
   claim_C7.2.2.2.2.2 demoEntriesB⟩

/-- Claim C8: the cell list is append-only — a walk only appends a suffix
after the existing cells, never reordering or removing them — and that
suffix is the concatenation of per-file blocks, each either empty or exactly
one heading cell for the file followed by precisely that file's code cells,
so every code cell lies after its file's heading and before the next
file's heading. -/
theorem claim_C8 :
    (∀ (st : NB) (entries : List (DirA × List Char)),
      (driverAFrom st entries).cells = st.cells ++ walkCellsA entries) ∧
    (∀ entries : List (DirA × List Char),
      (create_notebook_from_python_files entries).cells
        = walkCellsA entries) ∧
    (∀ f : FileA, fileBlockA f = [] ∨
      fileBlockA f = Cell.markdown (headerA f.name)
        :: (extract_functions_and_classes_from_file f.body).map Cell.code) := by
  refine ⟨fun st entries => driverAFrom_cells entries st, ?_, ?_⟩
  · intro entries
    rw [create_notebook_from_python_files, driverAFrom_cells entries]
    simp [emptyNB]
  · intro f
    rw [fileBlockA]
    by_cases h1 : endsWithPy f.name = true
    · simp only [if_pos h1]
      by_cases h2 :
          (extract_functions_and_classes_from_file f.body).isEmpty = true
      · left
        simp [h2]
      · right
        simp [h2]
    · left
      simp [h1]

/-- Claim C8 witness: the append-only equation and block shape at concrete
data. -/
theorem claim_C8_witness :
    (driverAFrom emptyNB demoEntriesA).cells
      = emptyNB.cells ++ walkCellsA demoEntriesA ∧
    (fileBlockA demoFileA = [] ∨
      fileBlockA demoFileA = Cell.markdown (headerA demoFileA.name)
        :: (extract_functions_and_classes_from_file demoFileA.body).map
            Cell.code) :=
  ⟨claim_C8.1 emptyNB demoEntriesA, claim_C8.2.2 demoFileA⟩

/-- Claim C9: the normalizer defined in `src/main.py` and the one defined in
`src/making-file.py` — verbatim-identical source — compute the same
function on every input. -/
theorem claim_C9 (s : List Char) :
    remove_comments_and_docstrings s = remove_comments_and_docstrings_mf s :=
  rfl

/-- Claim C10: in variant B, a `.py` file contributes one heading cell and a
single code cell exactly when the normalized content is a non-empty string
(a whitespace-only normalization result still contributes), and the
`No content` diagnostic is emitted exactly when the normalized content is
the empty string. -/
theorem claim_C10 (root : List Char) (st : NBB) (f : FileB)
    (hpy : endsWithPy f.name = true) :
    (remove_comments_and_docstrings_mf f.content ≠ [] →
      processFileB root st f =
        { cells := st.cells
            ++ [Cell.markdown (headerB f.name (pathJoin root f.name)),
                Cell.code (remove_comments_and_docstrings_mf f.content)],
          codeCellCount := st.codeCellCount + 1,
          log := st.log ++ [Msg.processingFile (pathJoin root f.name),
            Msg.processingContent f.name] }) ∧
    (remove_comments_and_docstrings_mf f.content = [] →
      processFileB root st f =
        { cells := st.cells, codeCellCount := st.codeCellCount,
          log := st.log ++ [Msg.processingFile (pathJoin root f.name),
            Msg.noContent f.name] }) := by
  constructor
  · intro h
    simp [processFileB, hpy, List.isEmpty_iff, h]
  · intro h
    simp [processFileB, hpy, h, List.isEmpty_iff]

/-- Claim C10 witness: a comment-only file ending in a newline normalizes to
the non-empty string `"\n"` and still contributes a heading and a code
cell, while a comment-only file with no newline normalizes to the empty
string and yields only the `No content` diagnostic. -/
theorem claim_C10_witness :
    (processFileB (String.toList "r") emptyNBB demoFileB =
      { cells := emptyNBB.cells
          ++ [Cell.markdown (headerB demoFileB.name
                (pathJoin (String.toList "r") demoFileB.name)),
              Cell.code (remove_comments_and_docstrings_mf demoFileB.content)],
        codeCellCount := emptyNBB.codeCellCount + 1,
        log := emptyNBB.log
          ++ [Msg.processingFile (pathJoin (String.toList "r") demoFileB.name),
            Msg.processingContent demoFileB.name] }) ∧
    (processFileB (String.toList "r") emptyNBB demoFileB0 =
      { cells := emptyNBB.cells, codeCellCount := emptyNBB.codeCellCount,
        log := emptyNBB.log
          ++ [Msg.processingFile
                (pathJoin (String.toList "r") demoFileB0.name),
            Msg.noContent demoFileB0.name] }) :=
  ⟨(claim_C10 (String.toList "r") emptyNBB demoFileB (by decide)).1 (by decide),
   (claim_C10 (String.toList "r") emptyNBB demoFileB0 (by decide)).2 (by decide)⟩

end NotebookTool
